import Mathlib

/-!
# Verification of the DKIM signature-verification library

A shallow embedding of the Go DKIM verifier (files `dkim.go` and the
public-key/verify file) into Lean 4.  Byte strings are modelled as
`List Nat` (one `Nat` per byte), Go strings as `String`/`List Char`.
Cryptographic digests (SHA-1/SHA-256) are external to the library; a
digest is modelled by the exact byte stream the code feeds into the
hasher, so two digests are equal exactly when their input streams are
equal (hash collisions are out of scope).
-/

set_option autoImplicit false

namespace Dkim

/-! ## Body canonicalization (`readBodyTo`, `GetBodyHash`)

`readBodyTo` reads the body with `bufio.Reader.ReadBytes('\n')`: each
line includes its terminating LF byte, and when the reader returns an
error (end of input) the partially-read final fragment is discarded
before being processed.  We model this split first.  -/

/-- Splits a byte string into the LF-terminated lines (each returned
line ends with byte 10) and the trailing unterminated fragment, exactly
as the `ReadBytes('\n')` loop in `readBodyTo` delivers them.  `acc` is
the partial line read so far. -/
def splitLinesAux (acc : List Nat) : List Nat → List (List Nat) × List Nat
  | [] => ([], acc)
  | b :: rest =>
    if b = 10 then
      let p := splitLinesAux [] rest
      ((acc ++ [10]) :: p.1, p.2)
    else splitLinesAux (acc ++ [b]) rest

/-- All LF-terminated lines of a body plus the trailing fragment. -/
def splitLines (body : List Nat) : List (List Nat) × List Nat :=
  splitLinesAux [] body

/-- `bytes.TrimRight(line, "\t\r\n ")`: drop trailing whitespace bytes. -/
def trimRightWS (l : List Nat) : List Nat :=
  (l.reverse.dropWhile (fun c => c = 9 ∨ c = 13 ∨ c = 10 ∨ c = 32)).reverse

/-- `bytes.Replace(line, "\t", " ", -1)`: tabs become spaces. -/
def replaceTabs (l : List Nat) : List Nat :=
  l.map (fun c => if c = 9 then 32 else c)

/-- Regex `[ ]{2,}` replaced by a single space: every maximal run of
spaces collapses to one space (the run's last byte survives). -/
def collapseSpaceRuns : List Nat → List Nat
  | [] => []
  | c :: rest =>
    if c = 32 then
      match rest with
      | d :: _ => if d = 32 then collapseSpaceRuns rest else 32 :: collapseSpaceRuns rest
      | [] => [32]
    else c :: collapseSpaceRuns rest

/-- The `line[0] == ' '` fix-up in `readBodyTo`: a leading space run is
replaced by one space (a no-op after `collapseSpaceRuns`, kept for
fidelity to the source). -/
def fixLeadingSpace (l : List Nat) : List Nat :=
  if l.head? = some 32 then 32 :: l.dropWhile (fun c => c = 32) else l

/-- The relaxed per-line canonicalization applied by `readBodyTo` to a
line of more than two bytes: right-trim whitespace, tabs to spaces,
collapse space runs, normalize a leading space, re-append CRLF. -/
def canonLineRelaxed (line : List Nat) : List Nat :=
  let l := trimRightWS line
  let l2 := if l = [] then l else fixLeadingSpace (collapseSpaceRuns (replaceTabs l))
  l2 ++ [13, 10]

/-- The line value after the in-loop relaxed canonicalization: lines of
more than two bytes are canonicalized, shorter lines pass through (and
in simple mode every line passes through). -/
def bodyLine2 (relaxed : Bool) (line : List Nat) : List Nat :=
  if relaxed ∧ line.length > 2 then canonLineRelaxed line else line

/-- Bytes written by one iteration of the `readBodyTo` loop: a pending
`prev` line is flushed, preceded by the pending blank run `tmp`. -/
def stepOut (tmp prev : List Nat) : List Nat :=
  if prev ≠ [] then tmp ++ prev else []

/-- The pending blank-run after one loop iteration: it is cleared by a
flush, and a relaxed-mode line that canonicalizes to two or fewer bytes
appends one canonical `"\r\n"` placeholder. -/
def stepTmp (relaxed : Bool) (line tmp prev : List Nat) : List Nat :=
  let t1 : List Nat := if prev ≠ [] then [] else tmp
  if relaxed ∧ ¬ (bodyLine2 relaxed line).length > 2 then t1 ++ [13, 10] else t1

/-- The withheld line after one loop iteration: the canonicalized line
when it is kept (simple mode keeps every line), `[]` when the relaxed
mode classified it as blank. -/
def stepPrev (relaxed : Bool) (line : List Nat) : List Nat :=
  if relaxed ∧ ¬ (bodyLine2 relaxed line).length > 2 then [] else bodyLine2 relaxed line

/-- One iteration of the `readBodyTo` loop on the current `line` with
pending state `tmp` (run of canonical blank lines, `"\r\n"` per blank)
and `prev` (the withheld previous line, `[]` for Go's `nil`).  Returns
`(bytes written, new tmp, new prev)`. -/
def bodyStep (relaxed : Bool) (line tmp prev : List Nat) :
    List Nat × List Nat × List Nat :=
  (stepOut tmp prev, stepTmp relaxed line tmp prev, stepPrev relaxed line)

/-- The main loop of `readBodyTo` over the delivered lines; at end of
input `prev` is flushed unless it equals `"\r\n"` exactly. -/
def readBodyGo (relaxed : Bool) : List (List Nat) → List Nat → List Nat → List Nat
  | [], tmp, prev => if prev ≠ [] ∧ prev ≠ [13, 10] then tmp ++ prev else []
  | line :: rest, tmp, prev =>
    (bodyStep relaxed line tmp prev).1 ++
      readBodyGo relaxed rest (bodyStep relaxed line tmp prev).2.1
        (bodyStep relaxed line tmp prev).2.2

/-- `readBodyTo`: the exact byte stream written to the digest for a
body, in simple (`relaxed = false`) or relaxed (`relaxed = true`) body
canonicalization.  The trailing unterminated fragment is discarded by
the read loop before processing. -/
def readBodyTo (relaxed : Bool) (body : List Nat) : List Nat :=
  readBodyGo relaxed (splitLines body).1 [] []

/-- `GetBodyHash`: the body digest, modelled as the canonical byte
stream fed to the hasher (digest equality = stream equality). -/
def GetBodyHash (relaxed : Bool) (body : List Nat) : List Nat :=
  readBodyTo relaxed body

/-- `k` trailing blank lines, as raw bytes (`"\r\n"` repeated). -/
def crlfs : Nat → List Nat
  | 0 => []
  | k + 1 => 13 :: 10 :: crlfs k

/-! ### Lemmas about line splitting -/

theorem splitLinesAux_append (B : List Nat) :
    ∀ (acc C : List Nat), (splitLinesAux acc B).2 = [] →
    splitLinesAux acc (B ++ C) =
      ((splitLinesAux acc B).1 ++ (splitLinesAux [] C).1, (splitLinesAux [] C).2) := by
  induction B with
  | nil =>
    intro acc C h
    simp only [splitLinesAux] at h
    subst h
    simp [splitLinesAux]
  | cons b B ih =>
    intro acc C h
    by_cases hb : b = 10
    · subst hb
      simp only [splitLinesAux, if_pos rfl, List.cons_append, List.append_eq] at h ⊢
      rw [ih [] C h]
      simp
    · simp only [splitLinesAux, if_neg hb, List.cons_append, List.append_eq] at h ⊢
      exact ih (acc ++ [b]) C h

theorem splitLinesAux_no10 (f : List Nat) :
    ∀ acc : List Nat, 10 ∉ f → splitLinesAux acc f = ([], acc ++ f) := by
  induction f with
  | nil => intro acc _; simp [splitLinesAux]
  | cons b f ih =>
    intro acc h
    simp only [List.mem_cons, not_or] at h
    have hb : ¬ b = 10 := fun hb => h.1 hb.symm
    simp only [splitLinesAux, if_neg hb]
    rw [ih (acc ++ [b]) h.2]
    simp

theorem splitLinesAux_crlfs (k : Nat) :
    splitLinesAux [] (crlfs k) = (List.replicate k [13, 10], []) := by
  induction k with
  | zero => simp [crlfs, splitLinesAux]
  | succ k ih => simp [crlfs, splitLinesAux, List.replicate_succ, ih]

/-! ### Lemmas about the body loop -/

theorem readBodyGo_cons (relaxed : Bool) (line : List Nat) (rest : List (List Nat))
    (tmp prev : List Nat) :
    readBodyGo relaxed (line :: rest) tmp prev =
      stepOut tmp prev ++
        readBodyGo relaxed rest (stepTmp relaxed line tmp prev) (stepPrev relaxed line) := rfl

theorem stepOut_nil (tmp : List Nat) : stepOut tmp [] = [] := by
  simp [stepOut]

theorem stepTmp_blank (tmp prev : List Nat) :
    stepTmp true [13, 10] tmp prev = (if prev ≠ [] then [] else tmp) ++ [13, 10] := by
  simp [stepTmp, bodyLine2]

theorem stepPrev_blank : stepPrev true [13, 10] = [] := by
  simp [stepPrev, bodyLine2]

/-- In relaxed mode the withheld line is never the bare `"\r\n"`:
it is either empty or longer than two bytes. -/
theorem stepPrev_ne (line : List Nat) : stepPrev true line ≠ [13, 10] := by
  unfold stepPrev
  by_cases h2 : (bodyLine2 true line).length > 2
  · rw [if_neg (by simp [h2])]
    intro hc
    rw [hc] at h2
    simp at h2
  · rw [if_pos (by simp [h2])]
    simp

theorem readBodyGo_blanks (k : Nat) :
    ∀ tmp prev : List Nat, prev ≠ [13, 10] →
    readBodyGo true (List.replicate k [13, 10]) tmp prev = readBodyGo true [] tmp prev := by
  induction k with
  | zero => intro tmp prev _; rfl
  | succ k ih =>
    intro tmp prev h
    rw [List.replicate_succ, readBodyGo_cons, stepPrev_blank, stepTmp_blank]
    rw [ih _ [] (by simp)]
    simp only [readBodyGo]
    by_cases hp : prev = []
    · simp [hp, stepOut]
    · simp [hp, h, stepOut]

theorem readBodyGo_append_blanks (k : Nat) :
    ∀ (ls : List (List Nat)) (tmp prev : List Nat), prev ≠ [13, 10] →
    readBodyGo true (ls ++ List.replicate k [13, 10]) tmp prev =
      readBodyGo true ls tmp prev := by
  intro ls
  induction ls with
  | nil =>
    intro tmp prev h
    simpa using readBodyGo_blanks k tmp prev h
  | cons l ls ih =>
    intro tmp prev _
    rw [List.cons_append, readBodyGo_cons, readBodyGo_cons]
    rw [ih _ _ (stepPrev_ne l)]

theorem readBodyGo_blanks_then_line (k : Nat) :
    ∀ tmp : List Nat,
    readBodyGo true (List.replicate k [13, 10] ++ [[97, 98, 10]]) tmp [] =
      tmp ++ crlfs k ++ [97, 98, 13, 10] := by
  induction k with
  | zero =>
    intro tmp
    have hb : bodyLine2 true [97, 98, 10] = [97, 98, 13, 10] := by decide
    have ht : stepTmp true [97, 98, 10] tmp [] = tmp := by simp [stepTmp, hb]
    have hp : stepPrev true [97, 98, 10] = [97, 98, 13, 10] := by decide
    simp only [List.replicate, List.nil_append, readBodyGo_cons, ht, hp, stepOut_nil]
    simp [readBodyGo, crlfs]
  | succ k ih =>
    intro tmp
    have ht : stepTmp true [13, 10] tmp [] = tmp ++ [13, 10] := by
      simp [stepTmp, bodyLine2]
    rw [List.replicate_succ, List.cons_append, readBodyGo_cons, stepPrev_blank, ht,
      stepOut_nil]
    rw [ih (tmp ++ [13, 10])]
    simp [crlfs]

/-! ### Claims C2 and C10 -/

/-- C2, counterexample: the claim quantifies over *every* body `B`, but
when `B` ends in an unterminated line (here `"aa\nb"`), appending
`"\r\n"` completes that fragment into a line instead of adding a blank
line, and the relaxed body-hash input changes (`"aa\r\n"` versus
`"aa\r\nb\r\n"`). -/
theorem c2_trailing_blank_cex :
    GetBodyHash true ([97, 97, 10, 98] ++ crlfs 1) ≠ GetBodyHash true [97, 97, 10, 98] := by
  decide

/-- C2 (amended): for every body `B` consisting of complete
LF-terminated lines (no trailing fragment, which is what makes the
appended `"\r\n"` pairs genuine blank lines) and every `k ≥ 0`, the
relaxed-mode body hash of `B` followed by `k` blank lines equals the
relaxed-mode body hash of `B` alone; moreover blank lines followed by a
later non-blank line are emitted: a body of `k` blank lines followed by
`"ab\n"` hashes the stream of all `k` blanks and the canonical line. -/
theorem c2_trailing_blank_collapse (B : List Nat) (k : Nat)
    (h : (splitLines B).2 = []) :
    GetBodyHash true (B ++ crlfs k) = GetBodyHash true B ∧
    GetBodyHash true (crlfs k ++ [97, 98, 10]) = crlfs k ++ [97, 98, 13, 10] := by
  constructor
  · show readBodyGo true (splitLinesAux [] (B ++ crlfs k)).1 [] [] =
      readBodyGo true (splitLinesAux [] B).1 [] []
    rw [splitLinesAux_append B [] (crlfs k) h, splitLinesAux_crlfs k]
    exact readBodyGo_append_blanks k _ [] [] (by simp)
  · show readBodyGo true (splitLinesAux [] (crlfs k ++ [97, 98, 10])).1 [] [] =
      crlfs k ++ [97, 98, 13, 10]
    rw [splitLinesAux_append (crlfs k) [] [97, 98, 10]
      (by rw [splitLinesAux_crlfs k]), splitLinesAux_crlfs k]
    have := readBodyGo_blanks_then_line k []
    simpa using this

/-- C2, witness: the collapse theorem applied at the concrete body
`"ab\n"` with two appended blank lines. -/
theorem c2_trailing_blank_collapse_wit :
    GetBodyHash true ([97, 98, 10] ++ crlfs 2) = GetBodyHash true [97, 98, 10] ∧
    GetBodyHash true (crlfs 2 ++ [97, 98, 10]) = crlfs 2 ++ [97, 98, 13, 10] :=
  c2_trailing_blank_collapse [97, 98, 10] 2 (by decide)

/-- C10: for every body made of complete LF-terminated lines followed
by an unterminated fragment (no LF byte), the fragment is excluded from
the body-hash input in both simple and relaxed mode, so two bodies
differing only in the unterminated trailing fragment hash
identically. -/
theorem c10_fragment_excluded (B f1 f2 : List Nat) (relaxed : Bool)
    (hB : (splitLines B).2 = []) (h1 : 10 ∉ f1) (h2 : 10 ∉ f2) :
    GetBodyHash relaxed (B ++ f1) = GetBodyHash relaxed (B ++ f2) := by
  show readBodyGo relaxed (splitLinesAux [] (B ++ f1)).1 [] [] =
    readBodyGo relaxed (splitLinesAux [] (B ++ f2)).1 [] []
  rw [splitLinesAux_append B [] f1 hB, splitLinesAux_append B [] f2 hB,
    splitLinesAux_no10 f1 [] h1, splitLinesAux_no10 f2 [] h2]

/-- C10, witness: `"ab\n" ++ "x"` and `"ab\n" ++ "yz"` produce the same
relaxed body-hash input. -/
theorem c10_fragment_excluded_wit :
    GetBodyHash true ([97, 98, 10] ++ [120]) = GetBodyHash true ([97, 98, 10] ++ [121, 122]) :=
  c10_fragment_excluded [97, 98, 10] [120] [121, 122] true (by decide) (by decide) (by decide)

/-! ## Header canonicalization (`canonizeHeader`)

The relaxed branch applies two regex replacements:
`[ \t]+` → `" "`, then `" \r\n"` → `"\r\n"`. -/

/-- Regex `[ \t]+` replaced by a single space: every maximal run of
space/tab bytes collapses to one space byte. -/
def collapseWSP : List Nat → List Nat
  | [] => []
  | [c] => if c = 32 ∨ c = 9 then [32] else [c]
  | c :: d :: rest =>
    if c = 32 ∨ c = 9 then
      (if d = 32 ∨ d = 9 then collapseWSP (d :: rest) else 32 :: collapseWSP (d :: rest))
    else c :: collapseWSP (d :: rest)

/-- Regex `" \r\n"` replaced by `"\r\n"`: each leftmost, non-overlapping
occurrence of a space directly before CRLF loses the space. -/
def dropSpCRLF : List Nat → List Nat
  | c :: d :: e :: rest2 =>
    if c = 32 ∧ d = 13 ∧ e = 10 then 13 :: 10 :: dropSpCRLF rest2
    else c :: dropSpCRLF (d :: e :: rest2)
  | l => l

/-- `canonizeHeader`: relaxed mode collapses horizontal whitespace runs
to one space and then removes a space directly before a CRLF; simple
mode passes the value through unchanged. -/
def canonizeHeader (relaxed : Bool) (body : List Nat) : List Nat :=
  if relaxed then
    if body = [] then [] else dropSpCRLF (collapseWSP body)
  else body

/-! ### Normal-form predicates for relaxed header canonicalization -/

/-- No two adjacent space bytes anywhere in the list. -/
def noDbl : List Nat → Prop
  | c :: d :: rest => ¬(c = 32 ∧ d = 32) ∧ noDbl (d :: rest)
  | _ => True

/-- No occurrence of space-CR-LF anywhere in the list. -/
def noSpCRLF : List Nat → Prop
  | c :: d :: e :: rest => ¬(c = 32 ∧ d = 13 ∧ e = 10) ∧ noSpCRLF (d :: e :: rest)
  | _ => True

/-- The list begins with the bytes CR LF. -/
def startsCRLF (l : List Nat) : Prop :=
  l.head? = some 13 ∧ l.tail.head? = some 10

instance startsCRLF_dec (l : List Nat) : Decidable (startsCRLF l) :=
  inferInstanceAs (Decidable (l.head? = some 13 ∧ l.tail.head? = some 10))

theorem noDbl_cons (a : Nat) (l : List Nat) :
    noDbl (a :: l) ↔ ¬(a = 32 ∧ l.head? = some 32) ∧ noDbl l := by
  cases l with
  | nil => simp [noDbl]
  | cons b t => simp [noDbl]

theorem noSpCRLF_cons (a : Nat) (l : List Nat) :
    noSpCRLF (a :: l) ↔ ¬(a = 32 ∧ startsCRLF l) ∧ noSpCRLF l := by
  match l with
  | [] => simp [noSpCRLF, startsCRLF]
  | [b] => simp [noSpCRLF, startsCRLF]
  | b :: c :: t => simp [noSpCRLF, startsCRLF]

theorem collapseWSP_head (d : Nat) (r : List Nat) :
    (collapseWSP (d :: r)).head? = some (if d = 32 ∨ d = 9 then 32 else d) := by
  induction r generalizing d with
  | nil => by_cases h : d = 32 ∨ d = 9 <;> simp [collapseWSP, h]
  | cons e r ih =>
    by_cases h : d = 32 ∨ d = 9
    · by_cases he : e = 32 ∨ e = 9
      · rw [show collapseWSP (d :: e :: r) = collapseWSP (e :: r) by
          simp [collapseWSP, h, he]]
        rw [ih e]
        simp [h, he]
      · simp [collapseWSP, h, he]
    · simp [collapseWSP, h]

theorem collapse_ne9 (v : List Nat) : 9 ∉ collapseWSP v := by
  induction v using collapseWSP.induct with
  | case1 => simp [collapseWSP]
  | case2 c hc => simp [collapseWSP, hc]
  | case3 c hc =>
    push_neg at hc
    simp [collapseWSP, hc]
    omega
  | case4 c d rest hc hd ih => simpa [collapseWSP, hc, hd] using ih
  | case5 c d rest hc hd ih =>
    rw [show collapseWSP (c :: d :: rest) = 32 :: collapseWSP (d :: rest) by
      simp [collapseWSP, hc, hd]]
    simpa using ih
  | case6 c d rest hc ih =>
    push_neg at hc
    rw [show collapseWSP (c :: d :: rest) = c :: collapseWSP (d :: rest) by
      simp [collapseWSP, hc]]
    simp [ih]
    omega

theorem collapse_noDbl (v : List Nat) : noDbl (collapseWSP v) := by
  induction v using collapseWSP.induct with
  | case1 => simp [collapseWSP, noDbl]
  | case2 c hc => simp [collapseWSP, hc, noDbl]
  | case3 c hc => simp [collapseWSP, hc, noDbl]
  | case4 c d rest hc hd ih => simpa [collapseWSP, hc, hd] using ih
  | case5 c d rest hc hd ih =>
    rw [show collapseWSP (c :: d :: rest) = 32 :: collapseWSP (d :: rest) by
      simp [collapseWSP, hc, hd]]
    rw [noDbl_cons]
    refine ⟨?_, ih⟩
    rw [collapseWSP_head d rest, if_neg hd]
    rintro ⟨-, hh⟩
    exact hd (Or.inl (by simpa using hh))
  | case6 c d rest hc ih =>
    rw [show collapseWSP (c :: d :: rest) = c :: collapseWSP (d :: rest) by
      simp [collapseWSP, hc]]
    rw [noDbl_cons]
    refine ⟨?_, ih⟩
    rintro ⟨hc32, -⟩
    exact hc (Or.inl hc32)

theorem dropSpCRLF_eq_self_of_short (l : List Nat)
    (h : ∀ (c d e : Nat) (r : List Nat), l = c :: d :: e :: r → False) :
    dropSpCRLF l = l := by
  match l with
  | [] => rfl
  | [a] => rfl
  | [a, b] => rfl
  | a :: b :: c :: t => exact absurd rfl (h a b c t)

theorem noSpCRLF_short (l : List Nat)
    (h : ∀ (c d e : Nat) (r : List Nat), l = c :: d :: e :: r → False) :
    noSpCRLF l := by
  match l with
  | [] => trivial
  | [a] => trivial
  | [a, b] => trivial
  | a :: b :: c :: t => exact absurd rfl (h a b c t)

theorem dropSpCRLF_head (d : Nat) (t : List Nat) :
    (dropSpCRLF (d :: t)).head? = some (if d = 32 ∧ startsCRLF t then 13 else d) := by
  match t with
  | [] => simp [dropSpCRLF, startsCRLF]
  | [u] => simp [dropSpCRLF, startsCRLF]
  | u :: v :: t' =>
    by_cases h : d = 32 ∧ u = 13 ∧ v = 10
    · rw [show dropSpCRLF (d :: u :: v :: t') = 13 :: 10 :: dropSpCRLF t' by
        simp [dropSpCRLF, h]]
      have hs : startsCRLF (u :: v :: t') := by simp [startsCRLF, h.2.1, h.2.2]
      simp [h.1, hs]
    · rw [show dropSpCRLF (d :: u :: v :: t') = d :: dropSpCRLF (u :: v :: t') by
        simp [dropSpCRLF, h]]
      have hne : ¬(d = 32 ∧ startsCRLF (u :: v :: t')) := by
        simp only [startsCRLF, List.head?_cons, List.tail_cons, Option.some.injEq]
        exact h
      simp [hne]

theorem drop_ne9 (v : List Nat) (h : 9 ∉ v) : 9 ∉ dropSpCRLF v := by
  induction v using dropSpCRLF.induct with
  | case1 c d e rest2 hp ih =>
    rw [show dropSpCRLF (c :: d :: e :: rest2) = 13 :: 10 :: dropSpCRLF rest2 by
      simp [dropSpCRLF, hp]]
    simp only [List.mem_cons, not_or] at h ⊢
    exact ⟨by omega, by omega, ih h.2.2.2⟩
  | case2 c d e rest2 hp ih =>
    rw [show dropSpCRLF (c :: d :: e :: rest2) = c :: dropSpCRLF (d :: e :: rest2) by
      simp [dropSpCRLF, hp]]
    simp only [List.mem_cons, not_or] at h ⊢
    exact ⟨h.1, ih (by simp only [List.mem_cons, not_or]; exact h.2)⟩
  | case3 l hno =>
    rw [dropSpCRLF_eq_self_of_short l (by intro c d e r hl; exact hno c d e r hl)]
    exact h

theorem drop_noDbl (v : List Nat) (h : noDbl v) : noDbl (dropSpCRLF v) := by
  induction v using dropSpCRLF.induct with
  | case1 c d e rest2 hp ih =>
    obtain ⟨hc, hd, he⟩ := hp
    subst hc; subst hd; subst he
    rw [show dropSpCRLF (32 :: 13 :: 10 :: rest2) = 13 :: 10 :: dropSpCRLF rest2 by
      simp [dropSpCRLF]]
    rw [noDbl_cons, noDbl_cons, noDbl_cons] at h
    rw [noDbl_cons, noDbl_cons]
    exact ⟨by simp, by simp, ih h.2.2.2⟩
  | case2 c d e rest2 hp ih =>
    rw [show dropSpCRLF (c :: d :: e :: rest2) = c :: dropSpCRLF (d :: e :: rest2) by
      simp [dropSpCRLF, hp]]
    rw [noDbl_cons] at h
    rw [noDbl_cons]
    refine ⟨?_, ih h.2⟩
    rintro ⟨hc32, hh⟩
    rw [dropSpCRLF_head d (e :: rest2)] at hh
    by_cases hif : d = 32 ∧ startsCRLF (e :: rest2)
    · rw [if_pos hif] at hh
      simp at hh
    · rw [if_neg hif] at hh
      exact h.1 ⟨hc32, by simpa using hh⟩
  | case3 l hno =>
    rw [dropSpCRLF_eq_self_of_short l (by intro c d e r hl; exact hno c d e r hl)]
    exact h

theorem drop_startsCRLF (l : List Nat) (h : startsCRLF (dropSpCRLF l)) :
    startsCRLF l ∨ (l.head? = some 32 ∧ startsCRLF l.tail) := by
  match l with
  | [] => simp [dropSpCRLF, startsCRLF] at h
  | [a] => simp [dropSpCRLF, startsCRLF] at h
  | [a, b] =>
    rw [show dropSpCRLF [a, b] = [a, b] from rfl] at h
    exact Or.inl h
  | a :: b :: c :: t =>
    by_cases hp : a = 32 ∧ b = 13 ∧ c = 10
    · right
      refine ⟨by simp [hp.1], ?_⟩
      simp [startsCRLF, hp.2.1, hp.2.2]
    · rw [show dropSpCRLF (a :: b :: c :: t) = a :: dropSpCRLF (b :: c :: t) by
        simp [dropSpCRLF, hp]] at h
      obtain ⟨h13, h10⟩ := h
      simp only [List.head?_cons, Option.some.injEq] at h13
      simp only [List.tail_cons] at h10
      rw [dropSpCRLF_head b (c :: t)] at h10
      by_cases hif : b = 32 ∧ startsCRLF (c :: t)
      · rw [if_pos hif] at h10
        simp at h10
      · rw [if_neg hif] at h10
        left
        simp only [Option.some.injEq] at h10
        simp [startsCRLF, h13, h10]

theorem drop_noSpCRLF (v : List Nat) (h : noDbl v) : noSpCRLF (dropSpCRLF v) := by
  induction v using dropSpCRLF.induct with
  | case1 c d e rest2 hp ih =>
    obtain ⟨hc, hd, he⟩ := hp
    subst hc; subst hd; subst he
    rw [show dropSpCRLF (32 :: 13 :: 10 :: rest2) = 13 :: 10 :: dropSpCRLF rest2 by
      simp [dropSpCRLF]]
    rw [noDbl_cons, noDbl_cons, noDbl_cons] at h
    rw [noSpCRLF_cons, noSpCRLF_cons]
    exact ⟨by simp, by simp, ih h.2.2.2⟩
  | case2 c d e rest2 hp ih =>
    rw [show dropSpCRLF (c :: d :: e :: rest2) = c :: dropSpCRLF (d :: e :: rest2) by
      simp [dropSpCRLF, hp]]
    rw [noDbl_cons] at h
    rw [noSpCRLF_cons]
    refine ⟨?_, ih h.2⟩
    rintro ⟨hc32, hst⟩
    rcases drop_startsCRLF (d :: e :: rest2) hst with hs | ⟨hd32, hs2⟩
    · simp only [startsCRLF, List.head?_cons, List.tail_cons, Option.some.injEq] at hs
      exact hp ⟨hc32, hs.1, hs.2⟩
    · simp only [List.head?_cons, Option.some.injEq] at hd32
      exact h.1 ⟨hc32, by simp [hd32]⟩
  | case3 l hno =>
    rw [dropSpCRLF_eq_self_of_short l (by intro c d e r hl; exact hno c d e r hl)]
    exact noSpCRLF_short l (by intro c d e r hl; exact hno c d e r hl)

theorem collapse_id (v : List Nat) (h9 : 9 ∉ v) (hd : noDbl v) : collapseWSP v = v := by
  induction v using collapseWSP.induct with
  | case1 => rfl
  | case2 c hc =>
    have h32 : c = 32 := by
      simp only [List.mem_singleton] at h9
      rcases hc with h | h
      · exact h
      · omega
    simp [collapseWSP, hc, h32]
  | case3 c hc => simp [collapseWSP, hc]
  | case4 c d rest hc hdw ih =>
    exfalso
    simp only [List.mem_cons, not_or] at h9
    have hc32 : c = 32 := by
      rcases hc with h | h
      · exact h
      · omega
    have hd32 : d = 32 := by
      rcases hdw with h | h
      · exact h
      · omega
    rw [noDbl_cons] at hd
    exact hd.1 ⟨hc32, by simp [hd32]⟩
  | case5 c d rest hc hdw ih =>
    simp only [List.mem_cons, not_or] at h9
    have hc32 : c = 32 := by
      rcases hc with h | h
      · exact h
      · omega
    rw [noDbl_cons] at hd
    rw [show collapseWSP (c :: d :: rest) = 32 :: collapseWSP (d :: rest) by
      simp [collapseWSP, hc, hdw]]
    rw [ih (by simp only [List.mem_cons, not_or]; exact h9.2) hd.2, hc32]
  | case6 c d rest hc ih =>
    simp only [List.mem_cons, not_or] at h9
    rw [noDbl_cons] at hd
    rw [show collapseWSP (c :: d :: rest) = c :: collapseWSP (d :: rest) by
      simp [collapseWSP, hc]]
    rw [ih (by simp only [List.mem_cons, not_or]; exact h9.2) hd.2]

theorem drop_id (v : List Nat) (h : noSpCRLF v) : dropSpCRLF v = v := by
  induction v using dropSpCRLF.induct with
  | case1 c d e rest2 hp ih =>
    rw [noSpCRLF_cons] at h
    exact absurd ⟨hp.1, by simp [startsCRLF, hp.2.1, hp.2.2]⟩ h.1
  | case2 c d e rest2 hp ih =>
    rw [noSpCRLF_cons] at h
    rw [show dropSpCRLF (c :: d :: e :: rest2) = c :: dropSpCRLF (d :: e :: rest2) by
      simp [dropSpCRLF, hp]]
    rw [ih h.2]
  | case3 l hno =>
    exact dropSpCRLF_eq_self_of_short l (by intro c d e r hl; exact hno c d e r hl)

/-! ### Claim C4 -/

/-- C4: relaxed header canonicalization is idempotent — canonicalizing
the relaxed canonicalization of any byte string returns it unchanged. -/
theorem c4_relaxed_header_idempotent (v : List Nat) :
    canonizeHeader true (canonizeHeader true v) = canonizeHeader true v := by
  have hcanon : ∀ w : List Nat, canonizeHeader true w =
      if w = [] then [] else dropSpCRLF (collapseWSP w) := by
    intro w
    simp [canonizeHeader]
  rw [hcanon, hcanon]
  by_cases hv : v = []
  · simp [hv]
  · rw [if_neg hv]
    by_cases hw : dropSpCRLF (collapseWSP v) = []
    · simp [hw]
    · rw [if_neg hw]
      have h9 : 9 ∉ dropSpCRLF (collapseWSP v) := drop_ne9 _ (collapse_ne9 v)
      have hd : noDbl (dropSpCRLF (collapseWSP v)) := drop_noDbl _ (collapse_noDbl v)
      have hs : noSpCRLF (dropSpCRLF (collapseWSP v)) := drop_noSpCRLF _ (collapse_noDbl v)
      rw [collapse_id _ h9 hd, drop_id _ hs]

/-! ## Header-hash construction (`dkimSignatureForHash`, `GetHeaderHash`)

`dkimSignatureForHash` applies the regex replacement `b=[^;]+` → `b=`
to the raw signature header value.  `GetHeaderHash` streams, for each
signed header name, the last stored occurrence of that header through
`canonizeHeader`, then appends the blanked signature header itself. -/

/-- Worker for the regex `b=[^;]+` → `b=` replacement.  The Boolean
state is `true` while skipping the matched `[^;]+` run (bytes are
dropped until a `;` or the end); in state `false` a new leftmost match
`b` `=` non-`;` starts a replacement. -/
def blankBAux : Bool → List Nat → List Nat
  | _, [] => []
  | true, c :: rest => if c = 59 then c :: blankBAux false rest else blankBAux true rest
  | false, c :: d :: e :: rest2 =>
    if c = 98 ∧ d = 61 ∧ e ≠ 59 then 98 :: 61 :: blankBAux true (e :: rest2)
    else c :: blankBAux false (d :: e :: rest2)
  | false, c :: rest => c :: blankBAux false rest

/-- `dkimSignatureForHash`: the raw signature header value with every
regex match of `b=[^;]+` replaced by `b=`. -/
def dkimSignatureForHash (sigRaw : List Nat) : List Nat :=
  blankBAux false sigRaw

/-- `true` iff the byte string contains an occurrence of the regex
`b=[^;]+` (a `b`, then `=`, then at least one non-`;` byte). -/
def hasBEq : List Nat → Bool
  | c :: d :: e :: rest =>
    (decide (c = 98) && decide (d = 61) && decide (e ≠ 59)) || hasBEq (d :: e :: rest)
  | _ => false

/-- `textproto.validHeaderFieldByte`: ASCII letters, digits, and the
token specials. -/
def validHeaderFieldByte (c : Char) : Bool :=
  decide ((48 ≤ c.toNat ∧ c.toNat ≤ 57) ∨ (65 ≤ c.toNat ∧ c.toNat ≤ 90) ∨
    (97 ≤ c.toNat ∧ c.toNat ≤ 122) ∨
    c.toNat ∈ [33, 35, 36, 37, 38, 39, 42, 43, 45, 46, 94, 95, 96, 124, 126])

/-- The case-mapping loop of `textproto.CanonicalMIMEHeaderKey`:
uppercase the first byte and every byte following a `-`, lowercase the
rest (ASCII arithmetic, as the Go code does). -/
def canonChars (upper : Bool) : List Char → List Char
  | [] => []
  | c :: rest =>
    let c2 : Char :=
      if upper ∧ 97 ≤ c.toNat ∧ c.toNat ≤ 122 then Char.ofNat (c.toNat - 32)
      else if ¬ upper ∧ 65 ≤ c.toNat ∧ c.toNat ≤ 90 then Char.ofNat (c.toNat + 32)
      else c
    c2 :: canonChars (decide (c2 = Char.ofNat 45)) rest

/-- `textproto.CanonicalMIMEHeaderKey`: returned unchanged when any
byte is not a valid header-field byte, canonical case otherwise. -/
def canonicalMIMEHeaderKey (s : String) : String :=
  if s.data.all validHeaderFieldByte then String.mk (canonChars true s.data) else s

/-- `strings.ToLower` on the ASCII header names the library handles. -/
def toLowerAscii (s : String) : String :=
  String.mk (s.data.map (fun c =>
    if 65 ≤ c.toNat ∧ c.toNat ≤ 90 then Char.ofNat (c.toNat + 32) else c))

/-- The bytes of a Go string (the library's headers are ASCII). -/
def strBytes (s : String) : List Nat :=
  s.data.map Char.toNat

/-- Indexing a Go `mail.Header` map: the stored value list of a key,
`nil` (empty) when absent.  The map is modelled as an association
list keyed by canonical header names. -/
def lookupHdr (m : List (String × List (List Nat))) (key : String) : List (List Nat) :=
  match m with
  | [] => []
  | (k, v) :: rest => if k = key then v else lookupHdr rest key

/-- The header loop of `GetHeaderHash`: for each signed header name in
order, look up `header[CanonicalMIMEHeaderKey(key)]`; skip when no
value is stored; otherwise write the (lower-cased in relaxed mode) name,
a colon, the canonicalized *last* stored value, and a CRLF in relaxed
mode only. -/
def headerLoop (relaxed : Bool) (hmap : List (String × List (List Nat))) :
    List String → List Nat
  | [] => []
  | key :: rest =>
    (if (lookupHdr hmap (canonicalMIMEHeaderKey key)).length = 0 then []
     else
       strBytes (if relaxed then toLowerAscii key else key) ++ [58] ++
         canonizeHeader relaxed ((lookupHdr hmap (canonicalMIMEHeaderKey key)).getLastD []) ++
         (if relaxed then [13, 10] else [])) ++
      headerLoop relaxed hmap rest

/-- `GetHeaderHash`: the exact byte stream fed to the header digest
(digest modelled by its input stream).  `hmap` is the header set the
mode selects (`Mail.Header` for relaxed, `RawMailHeader` for simple),
`sigRaw` the raw signature header value `header.Get(HeaderName)`.
After the signed headers the signature header itself is appended with
its `b=` value blanked, canonicalized, with no trailing terminator. -/
def GetHeaderHash (relaxed : Bool) (hmap : List (String × List (List Nat)))
    (signedNames : List String) (sigRaw : List Nat) : List Nat :=
  headerLoop relaxed hmap signedNames ++
    strBytes (if relaxed then "dkim-signature" else "DKIM-Signature") ++ [58] ++
    canonizeHeader relaxed (dkimSignatureForHash sigRaw)

/-! ### Lemmas about the `b=[^;]+` replacement -/

theorem hasBEq_cons_false (x : Nat) (t : List Nat) (h : hasBEq (x :: t) = false) :
    hasBEq t = false := by
  match t with
  | [] => rfl
  | [d] => rfl
  | d :: e :: r =>
    simp only [hasBEq, Bool.or_eq_false_iff] at h
    exact h.2

theorem blankBAux_id (l : List Nat) (h : hasBEq l = false) : blankBAux false l = l := by
  match l with
  | [] => rfl
  | [c] => rfl
  | [c, d] => rfl
  | c :: d :: e :: rest =>
    simp only [hasBEq, Bool.or_eq_false_iff, Bool.and_eq_false_iff] at h
    have hcond : ¬(c = 98 ∧ d = 61 ∧ e ≠ 59) := by
      intro ⟨hc, hd, he⟩
      rcases h.1 with hf | hf
      · rcases hf with hf | hf
        · simp [hc] at hf
        · simp [hd] at hf
      · simp [he] at hf
    rw [show blankBAux false (c :: d :: e :: rest) = c :: blankBAux false (d :: e :: rest) by
      rw [blankBAux]; exact if_neg hcond]
    rw [blankBAux_id (d :: e :: rest) h.2]

theorem blankBAux_skip (val : List Nat) :
    ∀ post : List Nat, 59 ∉ val →
    blankBAux true (val ++ post) = blankBAux true post := by
  induction val with
  | nil => intro post _; rfl
  | cons v vt ih =>
    intro post h
    simp only [List.mem_cons, not_or] at h
    have hv : ¬ v = 59 := fun hv => h.1 hv.symm
    simp only [List.cons_append, blankBAux, if_neg hv]
    exact ih post h.2

theorem blankBAux_true_stop (post : List Nat)
    (h4 : post.head? = some 59 ∨ post = []) (h5 : hasBEq post = false) :
    blankBAux true post = post := by
  rcases h4 with h4 | h4
  · match post, h4 with
    | 59 :: p', _ =>
      have hstep : blankBAux true (59 :: p') = 59 :: blankBAux false p' := by
        rw [blankBAux]; simp
      rw [hstep, blankBAux_id p' (hasBEq_cons_false 59 p' h5)]
  · subst h4; rfl

/-- The replacement `b=[^;]+` → `b=` on a header whose only match is
the `b=` tag itself: the tag's value is removed and everything else is
untouched. -/
theorem blankBAux_tag (pre : List Nat) :
    ∀ (val post : List Nat), hasBEq (pre ++ [98]) = false → val ≠ [] → 59 ∉ val →
    (post.head? = some 59 ∨ post = []) → hasBEq post = false →
    blankBAux false (pre ++ 98 :: 61 :: (val ++ post)) = pre ++ 98 :: 61 :: post := by
  induction pre with
  | nil =>
    intro val post h1 h2 h3 h4 h5
    match val, h2 with
    | v :: vt, _ =>
      have hv : v ≠ 59 := by
        simp only [List.mem_cons, not_or] at h3
        exact fun hv => h3.1 hv.symm
      simp only [List.nil_append, List.cons_append]
      rw [show blankBAux false (98 :: 61 :: (v :: (vt ++ post))) =
          98 :: 61 :: blankBAux true (v :: (vt ++ post)) by simp [blankBAux, hv]]
      rw [show (v : Nat) :: (vt ++ post) = (v :: vt) ++ post from rfl]
      rw [blankBAux_skip (v :: vt) post h3]
      rw [blankBAux_true_stop post h4 h5]
  | cons a pre' ih =>
    intro val post h1 h2 h3 h4 h5
    have h1' : hasBEq (pre' ++ [98]) = false := by
      refine hasBEq_cons_false a _ ?_
      simpa using h1
    match pre' with
    | [] =>
      simp only [List.nil_append, List.cons_append] at ih ⊢
      rw [show blankBAux false (a :: 98 :: 61 :: (val ++ post)) =
          a :: blankBAux false (98 :: 61 :: (val ++ post)) by
        simp [blankBAux]]
      rw [ih val post h1' h2 h3 h4 h5]
    | [b] =>
      have hcond : ¬(a = 98 ∧ b = 61) := by
        intro ⟨ha, hb⟩
        simp only [List.cons_append, List.nil_append, hasBEq, ha, hb] at h1
        simp at h1
      have ih2 := ih val post h1' h2 h3 h4 h5
      simp only [List.cons_append, List.nil_append] at ih2 ⊢
      rw [show blankBAux false (a :: b :: 98 :: (61 :: (val ++ post))) =
          a :: blankBAux false (b :: 98 :: (61 :: (val ++ post))) by
        rw [blankBAux]
        exact if_neg (by intro ⟨ha, hb, _⟩; exact hcond ⟨ha, hb⟩)]
      rw [ih2]
    | b :: c2 :: pre3 =>
      have hcond : ¬(a = 98 ∧ b = 61 ∧ c2 ≠ 59) := by
        intro ⟨ha, hb, hc2⟩
        simp only [List.cons_append, hasBEq, ha, hb, Bool.or_eq_false_iff,
          Bool.and_eq_false_iff] at h1
        rcases h1.1 with hf | hf
        · rcases hf with hf | hf <;> simp at hf
        · simp [hc2] at hf
      have ih2 := ih val post h1' h2 h3 h4 h5
      simp only [List.cons_append] at ih2 ⊢
      rw [show blankBAux false (a :: b :: c2 :: (pre3 ++ 98 :: 61 :: (val ++ post))) =
          a :: blankBAux false (b :: c2 :: (pre3 ++ 98 :: 61 :: (val ++ post))) by
        rw [blankBAux]
        exact if_neg hcond]
      rw [ih2]

/-! ### Claims C3 and C5 -/

/-- C3, counterexample: the regex `b=[^;]+` is applied to the whole
header value, so a `b=` occurring inside another tag's value (here
`i=ab=cd`) is blanked as well: the hash input differs from the header
with only the `b=` tag's value removed. -/
theorem c3_sig_blank_cex :
    GetHeaderHash true [] [] (strBytes "i=ab=cd;b=XY") ≠
      headerLoop true [] [] ++ strBytes "dkim-signature" ++ [58] ++
        canonizeHeader true (strBytes "i=ab=cd;b=") := by
  decide

/-- C3 (amended): for every signature header value in which the pattern
`b=` followed by a non-`;` byte occurs only at the `b=` tag itself, the
last piece of the header-hash input is the signature header with
exactly the `b=` tag's value replaced by the empty string, canonicalized
in the selected header mode, with no trailing terminator after it; in
general the regex `b=[^;]+` blanks every such occurrence. -/
theorem c3_sig_blank (relaxed : Bool) (hmap : List (String × List (List Nat)))
    (names : List String) (pre val post : List Nat)
    (h1 : hasBEq (pre ++ [98]) = false) (h2 : val ≠ []) (h3 : 59 ∉ val)
    (h4 : post.head? = some 59 ∨ post = []) (h5 : hasBEq post = false) :
    GetHeaderHash relaxed hmap names (pre ++ 98 :: 61 :: (val ++ post)) =
      headerLoop relaxed hmap names ++
        strBytes (if relaxed then "dkim-signature" else "DKIM-Signature") ++ [58] ++
        canonizeHeader relaxed (pre ++ 98 :: 61 :: post) := by
  unfold GetHeaderHash dkimSignatureForHash
  rw [blankBAux_tag pre val post h1 h2 h3 h4 h5]

/-- C3, witness: blanking `"v=1;b=XY"` leaves `"v=1;b="` as the final
piece of the header-hash input. -/
theorem c3_sig_blank_wit :
    GetHeaderHash true [] [] (strBytes "v=1;" ++ 98 :: 61 :: (strBytes "XY" ++ [])) =
      headerLoop true [] [] ++ strBytes "dkim-signature" ++ [58] ++
        canonizeHeader true (strBytes "v=1;" ++ 98 :: 61 :: []) :=
  c3_sig_blank true [] [] (strBytes "v=1;") (strBytes "XY") []
    (by decide) (by decide) (by decide) (by decide) (by decide)

/-- C5: each signed header name contributes, in order: nothing when the
header is absent (and no error is raised, the loop simply continues),
and otherwise the *last* stored occurrence of that header, canonicalized,
with the name lower-cased and a CRLF appended exactly in relaxed mode. -/
theorem c5_header_selection (relaxed : Bool) (hmap : List (String × List (List Nat)))
    (n : String) (ns : List String) :
    (lookupHdr hmap (canonicalMIMEHeaderKey n) = [] →
      headerLoop relaxed hmap (n :: ns) = headerLoop relaxed hmap ns) ∧
    (∀ (vs : List (List Nat)) (v : List Nat),
      lookupHdr hmap (canonicalMIMEHeaderKey n) = vs ++ [v] →
      headerLoop relaxed hmap (n :: ns) =
        strBytes (if relaxed then toLowerAscii n else n) ++ [58] ++
          canonizeHeader relaxed v ++ (if relaxed then [13, 10] else []) ++
          headerLoop relaxed hmap ns) := by
  constructor
  · intro h
    simp [headerLoop, h]
  · intro vs v h
    simp only [headerLoop, h]
    rw [if_neg (by simp)]
    rw [List.getLastD_eq_getLast?, List.getLast?_concat]
    simp [List.append_assoc]

/-- C5, witness: with two stored `From` values the later one is hashed;
an absent name contributes nothing. -/
theorem c5_header_selection_wit :
    headerLoop true [("From", [[97], [98]])] ["from"] =
      strBytes (toLowerAscii "from") ++ [58] ++ canonizeHeader true [98] ++ [13, 10] ++
        headerLoop true [("From", [[97], [98]])] [] ∧
    headerLoop true [("From", [[97], [98]])] ["X-Absent"] =
      headerLoop true [("From", [[97], [98]])] [] := by
  constructor
  · exact (c5_header_selection true [("From", [[97], [98]])] "from" []).2 [[97]] [98]
      (by decide)
  · exact (c5_header_selection true [("From", [[97], [98]])] "X-Absent" []).1 (by decide)

/-! ## The tag-value parsers (`parseDKIM`, `newDKIMPublicKey`)

`parseDKIM` strips every space from the raw header value, splits on
`;`, splits each item at the first `=` (items without `=` are skipped),
and dispatches on the tag name.  `newDKIMPublicKey` does the same for
the DNS TXT public-key record. -/

/-- `strings.Replace(s, " ", "", -1)`. -/
def stripSpaces (l : List Char) : List Char :=
  l.filter (fun c => c != ' ')

/-- `strings.Split` on a one-character separator: `[""]` for the empty
string, empty segments preserved. -/
def splitOnChar (sep : Char) : List Char → List (List Char)
  | [] => [[]]
  | c :: rest =>
    match splitOnChar sep rest with
    | [] => [[]]
    | g :: gs => if c = sep then [] :: g :: gs else (c :: g) :: gs

/-- `strings.SplitN(s, sep, 2)`: the parts before and after the first
occurrence of `sep`, or `none` when `sep` does not occur. -/
def breakAtFirst (sep : Char) : List Char → Option (List Char × List Char)
  | [] => none
  | c :: rest =>
    if c = sep then some ([], rest)
    else
      match breakAtFirst sep rest with
      | some (a, b) => some (c :: a, b)
      | none => none

/-- `strconv.Atoi`: optional sign, one or more digits, 64-bit range;
anything else is an error (`none`). -/
def goAtoi (s : List Char) : Option Int :=
  let p : Int × List Char :=
    match s with
    | '-' :: r => (-1, r)
    | '+' :: r => (1, r)
    | r => (1, r)
  if p.2 = [] ∨ ¬ p.2.all Char.isDigit then none
  else
    let v : Int := p.1 * (p.2.foldl (fun acc c => acc * 10 + (c.toNat - 48)) 0 : Nat)
    if -(2 ^ 63) ≤ v ∧ v < 2 ^ 63 then some v else none

/-- The value of a standard base64 alphabet character. -/
def b64Val (c : Char) : Option Nat :=
  if 65 ≤ c.toNat ∧ c.toNat ≤ 90 then some (c.toNat - 65)
  else if 97 ≤ c.toNat ∧ c.toNat ≤ 122 then some (c.toNat - 97 + 26)
  else if 48 ≤ c.toNat ∧ c.toNat ≤ 57 then some (c.toNat - 48 + 52)
  else if c = '+' then some 62
  else if c = '/' then some 63
  else none

/-- `base64.StdEncoding` decoding by four-character quanta: `=` padding
only at the end, a trailing quantum of fewer than four characters is an
error. -/
def base64Chunks : List Char → Option (List Nat)
  | [] => some []
  | a :: b :: c :: d :: rest =>
    match b64Val a, b64Val b with
    | some va, some vb =>
      if c = '=' then
        if d = '=' ∧ rest = [] then some [va * 4 + vb / 16] else none
      else
        match b64Val c with
        | some vc =>
          if d = '=' then
            if rest = [] then some [va * 4 + vb / 16, (vb % 16) * 16 + vc / 4] else none
          else
            match b64Val d with
            | some vd =>
              (base64Chunks rest).map
                (fun t => (va * 4 + vb / 16) :: ((vb % 16) * 16 + vc / 4) :: ((vc % 4) * 64 + vd) :: t)
            | none => none
        | none => none
    | _, _ => none
  | _ => none

/-- `base64.StdEncoding.DecodeString`: CR and LF are ignored anywhere,
then the quanta are decoded. -/
def base64Decode (l : List Char) : Option (List Nat) :=
  base64Chunks (l.filter (fun c => c != '\x0d' && c != '\x0a'))

/-- `strings.HasPrefix` (first argument the string, second the sought
leading part). -/
def listStartsW : List Char → List Char → Bool
  | _, [] => true
  | [], _ :: _ => false
  | a :: s, b :: p => decide (a = b) && listStartsW s p

/-- `strings.HasPrefix s pre`. -/
def goHasPre (s p : String) : Bool :=
  listStartsW s.data p.data

/-- `strings.HasSuffix s sfx`. -/
def goHasSfx (s sfx : String) : Bool :=
  listStartsW s.data.reverse sfx.data.reverse

deriving instance DecidableEq for Except

/-- The error values of `parseDKIM`.  `PanicIndexRange` models the
runtime panic of the `z` branch when a copied-header entry has no
colon (`header_kv[1]` is out of range). -/
inductive ParseErr where
  | UnsupportedVersion
  | UnsupportedAlgorithm
  | MalformedTagValue
  | UnsupportedQueryType
  | UnsupportedTag
  | PanicIndexRange
deriving DecidableEq

/-- The `DKIM` and `DKIMHeader` fields written by `parseDKIM` (the
struct declarations live outside `dkim.go`; the fields and their Go
zero values are read off their uses, with `NewDKIM` presetting
`Version = "1"`).  Go nil byte slices are `none`.  `prevKey` carries
`parseDKIM`'s local `prev_key` variable, which persists across all
items of one header. -/
structure DKIMState where
  Version : String := "1"
  Algorithm : String := ""
  Signature : Option (List Nat) := none
  BodyHash : Option (List Nat) := none
  Canonization : String := ""
  Domain : String := ""
  Headers : List String := []
  Identifier : String := ""
  Length : Int := 0
  QueryType : String := ""
  Selector : String := ""
  Unixtime : Int := 0
  Expiration : Int := 0
  CopiedHeaders : List (String × String) := []
  IsBodyRelaxed : Bool := false
  IsHeaderRelaxed : Bool := false
  prevKey : String := ""
deriving DecidableEq

/-- The `h`-tag loop: append each split entry unless it equals the
running `prev_key`, updating `prev_key` on append.  Returns the
appended entries and the final `prev_key`. -/
def hFold (prev : String) : List String → List String × String
  | [] => ([], prev)
  | e :: rest =>
    if prev ≠ e then
      ((hFold e rest).1.cons e, (hFold e rest).2)
    else hFold prev rest

/-- One arm of the `switch key` in `parseDKIM`. -/
def processTag (st : DKIMState) (key : String) (value : List Char) :
    Except ParseErr DKIMState :=
  if key = "v" then
    if String.mk value ≠ "1" then .error .UnsupportedVersion
    else .ok {st with Version := String.mk value}
  else if key = "a" then
    if String.mk value ≠ "rsa-sha1" ∧ String.mk value ≠ "rsa-sha256" then
      .error .UnsupportedAlgorithm
    else .ok {st with Algorithm := String.mk value}
  else if key = "b" then
    match base64Decode value with
    | some bs => .ok {st with Signature := some bs}
    | none => .error .MalformedTagValue
  else if key = "bh" then
    match base64Decode value with
    | some bs => .ok {st with BodyHash := some bs}
    | none => .error .MalformedTagValue
  else if key = "c" then
    .ok {st with Canonization := String.mk value,
                 IsBodyRelaxed := goHasSfx (String.mk value) "/relaxed",
                 IsHeaderRelaxed := goHasPre (String.mk value) "relaxed"}
  else if key = "d" then .ok {st with Domain := String.mk value}
  else if key = "h" then
    .ok {st with
      Headers := st.Headers ++ (hFold st.prevKey ((splitOnChar ':' value).map String.mk)).1,
      prevKey := (hFold st.prevKey ((splitOnChar ':' value).map String.mk)).2}
  else if key = "i" then .ok {st with Identifier := String.mk value}
  else if key = "l" then
    match goAtoi value with
    | some n => .ok {st with Length := n}
    | none => .error .MalformedTagValue
  else if key = "q" then
    if String.mk value ≠ "dns/txt" ∧ String.mk value ≠ "dns" then
      .error .UnsupportedQueryType
    else .ok {st with QueryType := "dns/txt"}
  else if key = "s" then .ok {st with Selector := String.mk value}
  else if key = "t" then
    match goAtoi value with
    | some n => .ok {st with Unixtime := n}
    | none => .error .MalformedTagValue
  else if key = "x" then
    match goAtoi value with
    | some n => .ok {st with Expiration := n}
    | none => .error .MalformedTagValue
  else if key = "z" then
    let pairs := (splitOnChar '|' value).map (fun it => breakAtFirst ':' it)
    if pairs.all Option.isSome then
      .ok {st with CopiedHeaders := pairs.map (fun p =>
        match p with
        | some (k, v) => (String.mk k, String.mk v)
        | none => ("", ""))}
    else .error .PanicIndexRange
  else .error .UnsupportedTag

/-- The item loop of `parseDKIM`: items without `=` are skipped, the
first tag error aborts the parse. -/
def processItems (st : DKIMState) : List (List Char) → Except ParseErr DKIMState
  | [] => .ok st
  | item :: rest =>
    match breakAtFirst '=' item with
    | none => processItems st rest
    | some (k, v) =>
      match processTag st (String.mk k) v with
      | .error e => .error e
      | .ok st2 => processItems st2 rest

/-- `parseDKIM` on the raw signature header value. -/
def parseDKIM (header : String) : Except ParseErr DKIMState :=
  processItems {} (splitOnChar ';' (stripSpaces header.data))

/-! ### Claims C7 and C8 -/

/-- C7, counterexample: `strconv.Atoi` accepts a sign, so the value
`-1` for the `l` tag parses without `MalformedTagValue` and a parsed
header carries the negative body length limit `-1`. -/
theorem c7_negative_length_cex :
    parseDKIM "l=-1" = .ok {Length := -1} := by
  decide

/-- C7 (amended): the `l`, `t` and `x` tag values parse with
`strconv.Atoi`: a value that is not an optionally-signed 64-bit integer
fails the parse with `MalformedTagValue`, and an accepted value — which
may be negative — is stored as bodyLengthLimit, timestamp, or
expiration respectively. -/
theorem c7_ltx_atoi (st : DKIMState) (value : List Char) :
    (goAtoi value = none →
      processTag st "l" value = .error .MalformedTagValue ∧
      processTag st "t" value = .error .MalformedTagValue ∧
      processTag st "x" value = .error .MalformedTagValue) ∧
    (∀ n : Int, goAtoi value = some n →
      processTag st "l" value = .ok {st with Length := n} ∧
      processTag st "t" value = .ok {st with Unixtime := n} ∧
      processTag st "x" value = .ok {st with Expiration := n}) := by
  constructor
  · intro h
    refine ⟨?_, ?_, ?_⟩ <;> simp [processTag, h]
  · intro n h
    refine ⟨?_, ?_, ?_⟩ <;> simp [processTag, h]

/-- C7, witness: the tag handlers at the concrete values `-7` (accepted,
stored negative) and `4x` (rejected). -/
theorem c7_ltx_atoi_wit :
    processTag {} "l" "-7".data = .ok {Length := -7} ∧
    processTag {} "t" "4x".data = .error .MalformedTagValue := by
  constructor
  · exact ((c7_ltx_atoi {} "-7".data).2 (-7) (by decide)).1
  · exact ((c7_ltx_atoi {} "4x".data).1 (by decide)).2.1

/-- The entry-dropping rule exactly as the claim words it, for
comparison: an entry is dropped exactly when it equals the immediately
preceding entry (the first entry is always kept). -/
def claimGo (prev : String) : List String → List String
  | [] => []
  | e :: rest => if e = prev then claimGo e rest else e :: claimGo e rest

/-- The claimed collapse of an `h` tag's entry list: drop an entry iff
it equals the entry immediately before it. -/
def claimCollapse : List String → List String
  | [] => []
  | e :: rest => e :: claimGo e rest

theorem hFold_eq_claimGo (es : List String) :
    ∀ prev, (hFold prev es).1 = claimGo prev es := by
  induction es with
  | nil => intro prev; rfl
  | cons e rest ih =>
    intro prev
    by_cases h : e = prev
    · subst h
      rw [show hFold e (e :: rest) = hFold e rest by simp [hFold]]
      rw [show claimGo e (e :: rest) = claimGo e rest by simp [claimGo]]
      exact ih e
    · rw [show hFold prev (e :: rest) = ((hFold e rest).1.cons e, (hFold e rest).2) by
        simp [hFold]; intro hc; exact absurd hc.symm h]
      rw [show claimGo prev (e :: rest) = e :: claimGo e rest by simp [claimGo, h]]
      simp [ih e]

/-- C8, counterexample: the dedup tracker `prev_key` starts as the
empty string, so the *first* entry of `h=:a` — the empty name, which has
no preceding entry — is dropped: the parsed header list is `["a"]`, while
dropping an entry exactly when it equals its immediately preceding
entry would keep `["", "a"]`. -/
theorem c8_adjacent_dedup_cex :
    parseDKIM "h=:a" = .ok {Headers := ["a"], prevKey := "a"} ∧
    claimCollapse ((splitOnChar ':' ":a".data).map String.mk) = ["", "a"] := by
  constructor
  · decide
  · decide

/-- C8 (amended): the `h` tag splits on `:` and drops an entry exactly
when it equals the running `prev_key` tracker, which starts as the
empty string and persists across `h` tags of the same header; whenever
the first entry differs from the current tracker (in particular, a
non-empty first entry in a fresh parse) this coincides with dropping
exactly the entries equal to their immediately preceding entry, so
consecutive equal names collapse and equal names separated by a
different name are both kept. -/
theorem c8_h_adjacent_dedup (st : DKIMState) (value : List Char) :
    processTag st "h" value = .ok {st with
      Headers := st.Headers ++ (hFold st.prevKey ((splitOnChar ':' value).map String.mk)).1,
      prevKey := (hFold st.prevKey ((splitOnChar ':' value).map String.mk)).2} ∧
    (∀ es : List String, es.head? ≠ some st.prevKey →
      (hFold st.prevKey es).1 = claimCollapse es) := by
  constructor
  · simp [processTag]
  · intro es hes
    match es with
    | [] => rfl
    | e :: rest =>
      simp only [List.head?_cons, ne_eq, Option.some.injEq] at hes
      rw [show hFold st.prevKey (e :: rest) = ((hFold e rest).1.cons e, (hFold e rest).2) by
        simp [hFold]; intro hc; exact absurd hc.symm hes]
      show (hFold e rest).1.cons e = claimCollapse (e :: rest)
      rw [hFold_eq_claimGo rest e]
      rfl

/-- C8, witness: the handler on `h=a:a:b:a` collapses only the
immediately repeated `a`. -/
theorem c8_h_adjacent_dedup_wit :
    processTag {} "h" "a:a:b:a".data = .ok {Headers := ["a", "b", "a"], prevKey := "a"} ∧
    (hFold "" ["a", "a", "b", "a"]).1 = claimCollapse ["a", "a", "b", "a"] := by
  constructor
  · exact (c8_h_adjacent_dedup {} "a:a:b:a".data).1
  · exact (c8_h_adjacent_dedup {} "a:a:b:a".data).2 ["a", "a", "b", "a"] (by decide)

/-! ## The public-key record parser (`newDKIMPublicKey`) -/

/-- The `DKIMPublicKey` struct.  `PublicKey` is `none` for a Go nil
slice; a decoded empty value is `some []` (non-nil). -/
structure DKIMPublicKey where
  Key : String := ""
  Version : String := ""
  Tag : String := ""
  PublicKey : Option (List Nat) := none
deriving DecidableEq

/-- The item loop of `newDKIMPublicKey`: `v` must be `DKIM1`, `k` and
`t` are stored, `p` is base64-decoded (decode failure is an error),
unknown tags are skipped (the strict branch is commented out in the
source). -/
def pkProcessItems (pk : DKIMPublicKey) : List (List Char) → Except String DKIMPublicKey
  | [] => .ok pk
  | item :: rest =>
    match breakAtFirst '=' item with
    | none => pkProcessItems pk rest
    | some (k, v) =>
      if k = "v".data then
        if String.mk v ≠ "DKIM1" then .error "invalid version"
        else pkProcessItems {pk with Version := String.mk v} rest
      else if k = "k".data then pkProcessItems {pk with Key := String.mk v} rest
      else if k = "t".data then pkProcessItems {pk with Tag := String.mk v} rest
      else if k = "p".data then
        match base64Decode v with
        | some bs => pkProcessItems {pk with PublicKey := some bs} rest
        | none => .error "invalid public"
      else pkProcessItems pk rest

/-- `newDKIMPublicKey`: parse the TXT record, then reject the record
with the `"empty"` error exactly when `PublicKey` is still a Go nil
slice. -/
def newDKIMPublicKey (txt : String) : Except String DKIMPublicKey :=
  match pkProcessItems {} (splitOnChar ';' (stripSpaces txt.data)) with
  | .error e => .error e
  | .ok pk => if pk.PublicKey = none then .error "empty" else .ok pk

/-! ### Claim C6 -/

/-- C6, counterexample: `base64.StdEncoding.DecodeString("")` returns a
non-nil *empty* slice, so a record whose `p=` tag carries the empty
value is accepted, and the parsed record's key bytes are empty — the
nil check does not reject it. -/
theorem c6_empty_p_cex :
    newDKIMPublicKey "p=" = .ok {PublicKey := some []} := by
  decide

/-- C6 (amended): the parser returns an error when no `p` tag was
decoded at all (the `PublicKey` slice is still nil), and a successfully
parsed record always has a non-nil — though possibly empty —
`publicKeyBytes`: a record whose `p=` tag carries an empty value is
accepted with empty key bytes. -/
theorem c6_parsed_key_nonnil (txt : String) (pk : DKIMPublicKey)
    (h : newDKIMPublicKey txt = .ok pk) : pk.PublicKey.isSome = true := by
  unfold newDKIMPublicKey at h
  cases hp : pkProcessItems {} (splitOnChar ';' (stripSpaces txt.data)) with
  | error e => rw [hp] at h; cases h
  | ok pk2 =>
    rw [hp] at h
    dsimp only at h
    by_cases hn : pk2.PublicKey = none
    · rw [if_pos hn] at h; cases h
    · rw [if_neg hn] at h
      injection h with h
      subst h
      exact Option.isSome_iff_ne_none.mpr hn

/-- C6, witness: the record `p=QQ==` parses and its key bytes are
non-nil. -/
theorem c6_parsed_key_nonnil_wit :
    (({PublicKey := some [65]} : DKIMPublicKey)).PublicKey.isSome = true :=
  c6_parsed_key_nonnil "p=QQ==" {PublicKey := some [65]} (by decide)

/-! ## The verifier (`GetPublicKey`, `Verify`)

`Verify` orchestrates on external collaborators — DNS/cache handlers,
`x509.ParsePKIXPublicKey` and `rsa.VerifyPKCS1v15`.  The collaborators
are modelled as environment data: resolver results as optional TXT
strings, the two crypto calls as Boolean oracles recording whether the
call would succeed on the message at hand.  A trace records which
stages executed. -/

/-- The three `DKIMStatus` flags, all `false` when a verification
context is created. -/
structure DkimStatus where
  ValidBody : Bool := false
  Valid : Bool := false
  HasPublicKey : Bool := false
deriving DecidableEq

/-- Inputs of `GetPublicKey`: an already-attached `Dkim.PublicKey`
record, and the results of the cache-get and DNS-fetch handlers
(`none` is a handler error). -/
structure KeyEnv where
  injected : Option DKIMPublicKey := none
  cacheGet : Option String := none
  dnsFetch : Option String := none
deriving DecidableEq

/-- `GetPublicKey`: returns the injected record unchanged when present
(without touching `Status.HasPublicKey`); otherwise resolves the TXT
record through the cache and then DNS, parses it, and reports in the
second component whether `Status.HasPublicKey` was set to `true`. -/
def GetPublicKey (env : KeyEnv) : Option DKIMPublicKey × Bool :=
  match env.injected with
  | some pk => (some pk, false)
  | none =>
    let fetched : Option String :=
      match env.cacheGet with
      | some s => some s
      | none => env.dnsFetch
    match fetched with
    | none => (none, false)
    | some txt =>
      match newDKIMPublicKey txt with
      | .error _ => (none, false)
      | .ok pk => (some pk, true)

/-- The inputs of one `Verify` run: the parsed domain, the body and its
canonicalization mode, the declared `bh=` value, the key-resolution
environment, and the outcomes of the two external crypto calls
(`x509.ParsePKIXPublicKey` and `rsa.VerifyPKCS1v15`). -/
structure VerifyEnv where
  domain : String
  body : List Nat
  isBodyRelaxed : Bool
  declaredBodyHash : List Nat
  keyEnv : KeyEnv
  x509Ok : Bool
  rsaOk : Bool

/-- Which stages of `Verify` ran: the body-hash computation and
comparison, the public-key resolution, the `x509` decode, and the RSA
signature check. -/
structure VerifyTrace where
  bodyHashCompared : Bool := false
  keyLookupDone : Bool := false
  x509Done : Bool := false
  rsaDone : Bool := false
deriving DecidableEq

/-- `Verify`: with an empty domain nothing runs; otherwise the body
hash is compared (`ValidBody`), the key is resolved, and on success the
`x509` decode and RSA check run (`Valid` set only when both succeed).
The returned Boolean is the verdict `ValidBody && Valid &&
HasPublicKey`. -/
def Verify (env : VerifyEnv) : DkimStatus × Bool × VerifyTrace :=
  if env.domain = "" then
    ({}, false, {})
  else
    let vb : Bool := GetBodyHash env.isBodyRelaxed env.body == env.declaredBodyHash
    let pr := GetPublicKey env.keyEnv
    let st : DkimStatus :=
      match pr.1 with
      | none => {ValidBody := vb, Valid := false, HasPublicKey := pr.2}
      | some _ => {ValidBody := vb, Valid := env.x509Ok && env.rsaOk, HasPublicKey := pr.2}
    let tr : VerifyTrace :=
      match pr.1 with
      | none => {bodyHashCompared := true, keyLookupDone := true}
      | some _ =>
        {bodyHashCompared := true, keyLookupDone := true, x509Done := true,
         rsaDone := env.x509Ok}
    (st, st.ValidBody && st.Valid && st.HasPublicKey, tr)

/-! ### Claims C1 and C9 -/

/-- C1: the verdict of `Verify` is `true` exactly when all three status
flags end up `true`; and a body-hash mismatch does not short-circuit —
when the key resolves and both crypto calls succeed, the RSA check
still runs and `Valid` is set, yet the verdict is `false`. -/
theorem c1_verdict_iff_flags (env : VerifyEnv) :
    ((Verify env).2.1 = true ↔
      (Verify env).1.ValidBody = true ∧ (Verify env).1.Valid = true ∧
        (Verify env).1.HasPublicKey = true) ∧
    (env.domain ≠ "" →
      (GetPublicKey env.keyEnv).1.isSome = true →
      env.x509Ok = true → env.rsaOk = true →
      GetBodyHash env.isBodyRelaxed env.body ≠ env.declaredBodyHash →
      (Verify env).2.2.rsaDone = true ∧ (Verify env).1.Valid = true ∧
        (Verify env).2.1 = false) := by
  constructor
  · unfold Verify
    by_cases hd : env.domain = ""
    · simp [hd]
    · rw [if_neg hd]
      cases hpk : (GetPublicKey env.keyEnv).1 with
      | none => simp [hpk]
      | some pk =>
        simp only [hpk]
        simp [and_assoc]
  · intro hd hpk hx hr hbh
    unfold Verify
    rw [if_neg hd]
    cases hpk2 : (GetPublicKey env.keyEnv).1 with
    | none => rw [hpk2] at hpk; cases hpk
    | some pk =>
      have hvb : (GetBodyHash env.isBodyRelaxed env.body == env.declaredBodyHash) = false := by
        simp [hbh]
      simp [hpk2, hvb, hx, hr]

/-- The concrete environment of the C1 witness: mismatching body hash,
resolvable key, succeeding crypto calls. -/
def c1WitEnv : VerifyEnv where
  domain := "example.com"
  body := []
  isBodyRelaxed := true
  declaredBodyHash := [0]
  keyEnv := {cacheGet := some "p=QQ=="}
  x509Ok := true
  rsaOk := true

/-- C1, witness: a run with a body-hash mismatch, a resolvable key and
succeeding crypto calls: the RSA stage runs, `Valid` is set, the
verdict is `false`, and the verdict Boolean agrees with the flag
conjunction. -/
theorem c1_verdict_iff_flags_wit :
    ((Verify c1WitEnv).2.1 = true ↔
      (Verify c1WitEnv).1.ValidBody = true ∧ (Verify c1WitEnv).1.Valid = true ∧
        (Verify c1WitEnv).1.HasPublicKey = true) ∧
    ((Verify c1WitEnv).2.2.rsaDone = true ∧ (Verify c1WitEnv).1.Valid = true ∧
      (Verify c1WitEnv).2.1 = false) :=
  ⟨(c1_verdict_iff_flags c1WitEnv).1,
   (c1_verdict_iff_flags c1WitEnv).2 (by decide) (by decide) rfl rfl (by decide)⟩

/-- C9: with an empty domain (absent or empty `d` tag) `Verify` returns
`false` immediately: the body hash is neither computed nor compared, no
key resolution, `x509` decode or signature check runs, and all three
status flags stay `false`. -/
theorem c9_empty_domain_noop (env : VerifyEnv) (h : env.domain = "") :
    Verify env = ({ValidBody := false, Valid := false, HasPublicKey := false}, false,
      {bodyHashCompared := false, keyLookupDone := false, x509Done := false,
       rsaDone := false}) := by
  unfold Verify
  rw [if_pos h]

/-- The concrete environment of the C9 witness: an empty domain with
everything else available. -/
def c9WitEnv : VerifyEnv where
  domain := ""
  body := [97]
  isBodyRelaxed := false
  declaredBodyHash := []
  keyEnv := {cacheGet := some "p=QQ=="}
  x509Ok := true
  rsaOk := true

/-- C9, witness: the empty-domain run at a concrete environment. -/
theorem c9_empty_domain_noop_wit :
    Verify c9WitEnv =
      ({ValidBody := false, Valid := false, HasPublicKey := false}, false,
       {bodyHashCompared := false, keyLookupDone := false, x509Done := false,
        rsaDone := false}) :=
  c9_empty_domain_noop c9WitEnv rfl

end Dkim
